import Mathlib

/-!
Shallow embedding of the subscription billing engine (`src/src/lib.rs` plus the
sorted-list ordered-map in `src/src/skiplist.rs`), together with theorems about
its operations.

Modelling conventions:
- Rust `i128` values are modelled as `Int`; the idealized semantics is exact
  integer arithmetic (Rust debug builds abort on overflow).  A separate
  wrapping-semantics model of `Collector::collect_one` (two's-complement
  modulo `2 ^ 128`, the release-build behaviour of the plain `*`, `+`, `-`
  operators in the source) is given as `Collector.collect_one_wrap`.
- Operations that can panic (`assert!` in `set_current_block`, division by
  zero in `top_off`) return `Option`: `none` models the aborted call, which
  mutates nothing.
- `Account` (a 20-byte array in the source) is modelled as `Nat`: only
  decidable equality of accounts is ever used.
- The `HashMap<Account, Vec<Subscription>>` is modelled as a total function
  `Account → List Subscription` whose default value is `[]`, matching
  `entry(account).or_default()`.
- The `SkipList` is used by the source only through `get_or_insert_mut` (plus
  `+=`/`-=`), in-order `iter`, and `truncate_front`; it keeps keys strictly
  sorted.  It is modelled as a sorted association list `List (Int × Int)`;
  `get_or_insert_mut k` followed by `+= v` is the sorted-insert-or-add
  function `accumulate`.
-/

abbrev Account : Type := Nat

/-- The `Subscription` record from `src/src/lib.rs` (fields `start_block`,
`end_block`, `price_per_block`, all `i128`). -/
structure Subscription where
  start_block : Int
  end_block : Int
  price_per_block : Int
  deriving DecidableEq, Repr

/-- The `Collector` state: last settled block, current aggregate fee rate, pooled
balance and service balance. -/
@[ext]
structure Collector where
  last_collected_block : Int
  current_fee : Int
  balance : Int
  service_balance : Int
  deriving DecidableEq, Repr

/-- Constructor `Collector::new()`. -/
def Collector.new : Collector :=
  { last_collected_block := 0, current_fee := 0, balance := 0, service_balance := 0 }

/-- Operation `Collector::collect_one(block)`: settle the elapsed blocks since
`last_collected_block` at the current fee rate, moving `fee` from `balance`
to `service_balance` (exact-arithmetic model). -/
def Collector.collect_one (c : Collector) (block : Int) : Collector :=
  let num_blocks := block - c.last_collected_block
  let fee := c.current_fee * num_blocks
  { c with
    balance := c.balance - fee
    service_balance := c.service_balance + fee
    last_collected_block := block }

/-- Two's-complement wrap of an unbounded integer into the `i128` range,
i.e. the value a Rust release build leaves in an `i128` after overflow. -/
def wrap128 (x : Int) : Int :=
  (x + 2 ^ 127) % 2 ^ 128 - 2 ^ 127

/-- Operation `Collector::collect_one` under Rust release-build (wrapping) `i128`
semantics: every `-`, `*`, `+` on the `i128` fields wraps modulo `2 ^ 128`. -/
def Collector.collect_one_wrap (c : Collector) (block : Int) : Collector :=
  let num_blocks := wrap128 (block - c.last_collected_block)
  let fee := wrap128 (c.current_fee * num_blocks)
  { c with
    balance := wrap128 (c.balance - fee)
    service_balance := wrap128 (c.service_balance + fee)
    last_collected_block := block }

/-- Operation `SkipList::get_or_insert_mut(k)` followed by `*_ += v` on a key-sorted
association list: find the entry for `k` (binary search in the source) and add
`v` to its value, inserting a fresh entry at the sorted position if absent. -/
def accumulate : List (Int × Int) → Int → Int → List (Int × Int)
  | [], k, v => [(k, v)]
  | (k', v') :: rest, k, v =>
    if k < k' then (k, v) :: (k', v') :: rest
    else if k = k' then (k', v' + v) :: rest
    else (k', v') :: accumulate rest k v

/-- The `SubscriptionManager` state from `src/src/lib.rs`. -/
@[ext]
structure SubscriptionManager where
  collector : Collector
  price_per_block : Int
  current_block : Int
  changes : List (Int × Int)
  subscriptions : Account → List Subscription

/-- Constructor `SubscriptionManager::new()`. -/
def SubscriptionManager.new : SubscriptionManager :=
  { collector := Collector.new
    price_per_block := 0
    current_block := 0
    changes := []
    subscriptions := fun _ => [] }

/-- Operation `SubscriptionManager::set_current_block(block)`: `assert!(block > current_block)`
then update.  `none` models the `assert!` panic, which mutates nothing. -/
def SubscriptionManager.set_current_block (s : SubscriptionManager) (block : Int) :
    Option SubscriptionManager :=
  if s.current_block < block then some { s with current_block := block } else none

/-- Operation `SubscriptionManager::set_price_per_block(price)`. -/
def SubscriptionManager.set_price_per_block (s : SubscriptionManager) (price : Int) :
    SubscriptionManager :=
  { s with price_per_block := price }

/-- Operation `SubscriptionManager::top_off(account, amount)`.  Rust `i128` division
truncates toward zero (`Int.tdiv`) and panics when the divisor is zero, which
is modelled by `none`.  When `num_blocks == 0` the call returns with no state
change.  Otherwise: `amount` is added to the pooled balance, the interval
`[start_block, end_block)` is appended to the account's ledger, and the two
offsetting rate deltas are merged into the sorted change list. -/
def SubscriptionManager.top_off (s : SubscriptionManager) (account : Account)
    (amount : Int) : Option SubscriptionManager :=
  let price_per_block := s.price_per_block
  let current_block := s.current_block
  if price_per_block = 0 then none
  else
    let num_blocks := Int.tdiv amount price_per_block
    if num_blocks = 0 then some s
    else
      let subs := s.subscriptions account
      let start_block :=
        max ((subs.getLast?.map Subscription.end_block).getD 0) (current_block + 1)
      let end_block := start_block + num_blocks
      some { s with
        collector := { s.collector with balance := s.collector.balance + amount }
        subscriptions := fun x =>
          if x = account then
            subs ++ [{ start_block := start_block, end_block := end_block,
                       price_per_block := price_per_block }]
          else s.subscriptions x
        changes :=
          accumulate (accumulate s.changes start_block price_per_block)
            end_block (-price_per_block) }

/-- The reverse-order scan inside `SubscriptionManager::is_active`: the list
argument is the account's ledger already reversed (most recent first); the
first entry with `start_block ≤ cur` decides the answer via `end_block > cur`. -/
def isActiveGo (cur : Int) : List Subscription → Bool
  | [] => false
  | sub :: rest =>
    if sub.start_block ≤ cur then decide (cur < sub.end_block)
    else isActiveGo cur rest

/-- Operation `SubscriptionManager::is_active(account)`. -/
def SubscriptionManager.is_active (s : SubscriptionManager) (account : Account) : Bool :=
  isActiveGo s.current_block ((s.subscriptions account).reverse)

/-- The loop inside `SubscriptionManager::collect`: walk the sorted change
list in order, stop at the first entry past the current block (`break`),
settle up to each processed entry's block and then fold its delta into the
fee rate.  Returns the updated collector and the unprocessed suffix (the
source counts processed entries and calls `truncate_front`). -/
def sweep (cur : Int) (c : Collector) : List (Int × Int) → Collector × List (Int × Int)
  | [] => (c, [])
  | (block, delta) :: rest =>
    if cur < block then (c, (block, delta) :: rest)
    else
      let c' := c.collect_one block
      sweep cur { c' with current_fee := c'.current_fee + delta } rest

/-- Operation `SubscriptionManager::collect()`: sweep all due changes, drop them, then
settle up to the current block at the now-current rate. -/
def SubscriptionManager.collect (s : SubscriptionManager) : SubscriptionManager :=
  let p := sweep s.current_block s.collector s.changes
  { s with collector := p.1.collect_one s.current_block, changes := p.2 }

/-- Calls of the public mutating API, for trace-level statements. -/
inductive Op where
  | setPrice (price : Int)
  | advance (block : Int)
  | topOff (account : Account) (amount : Int)
  | collect
  deriving DecidableEq, Repr

/-- One API call; `none` models a panicking call. -/
def step (s : SubscriptionManager) : Op → Option SubscriptionManager
  | .setPrice p => some (s.set_price_per_block p)
  | .advance b => s.set_current_block b
  | .topOff a amt => s.top_off a amt
  | .collect => some s.collect

/-- Run a sequence of API calls; `none` as soon as one panics. -/
def run (s : SubscriptionManager) : List Op → Option SubscriptionManager
  | [] => some s
  | op :: rest =>
    match step s op with
    | none => none
    | some s' => run s' rest

/-- The amount of funds an operation accepts in state `s`: a `top_off` whose
computed `num_blocks` is non-zero accepts its full `amount`; every other call
(and a rejected `top_off`) accepts nothing. -/
def acceptedAmt (s : SubscriptionManager) : Op → Int
  | .topOff _ amt =>
    if s.price_per_block = 0 then 0
    else if Int.tdiv amt s.price_per_block = 0 then 0
    else amt
  | _ => 0

/-- Run a sequence of API calls, also totalling the accepted `top_off` amounts
along the trace. -/
def runAmt (s : SubscriptionManager) : List Op → Option (SubscriptionManager × Int)
  | [] => some (s, 0)
  | op :: rest =>
    match step s op with
    | none => none
    | some s' =>
      match runAmt s' rest with
      | none => none
      | some (s'', t) => some (s'', acceptedAmt s op + t)

/-- Pooled balance plus service balance. -/
def sumBal (s : SubscriptionManager) : Int :=
  s.collector.balance + s.collector.service_balance

/-- The collector and remaining change list produced by one `collect()` call
executed at time `cur`: sweep the due changes, then settle to `cur`. -/
def collectPair (cur : Int) (c : Collector) (l : List (Int × Int)) :
    Collector × List (Int × Int) :=
  ((sweep cur c l).1.collect_one cur, (sweep cur c l).2)

/-- A schedule of `k` single-block time advances `t0 + 1, …, t0 + k`, each followed by one
`collect` call. -/
def stepOps (t0 : Int) : Nat → List Op
  | 0 => []
  | n + 1 => stepOps t0 n ++ [Op.advance (t0 + n + 1), Op.collect]

/-- Whether an operation keeps prices and purchase amounts non-negative. -/
def opOk : Op → Bool
  | .setPrice p => decide (0 ≤ p)
  | .topOff _ amt => decide (0 ≤ amt)
  | _ => true

/-- The per-account ledger invariant claimed by the spec: entries ordered by
non-decreasing `start_block`, and consecutive entries non-overlapping
(`start` of the next at or past `end` of the previous). -/
def ledgerOk (l : List Subscription) : Prop :=
  List.Chain' (fun x y => x.start_block ≤ y.start_block ∧ x.end_block ≤ y.start_block) l

instance : DecidablePred ledgerOk := fun l =>
  inferInstanceAs (Decidable (List.Chain' _ l))

/-- Internal invariant used to prove `ledgerOk` inductively: the price is
non-negative, every ledger is `ledgerOk`, and every recorded interval has
`start_block ≤ end_block`. -/
def stateOk (s : SubscriptionManager) : Prop :=
  0 ≤ s.price_per_block ∧
    ∀ a : Account, ledgerOk (s.subscriptions a) ∧
      ∀ e ∈ s.subscriptions a, e.start_block ≤ e.end_block

/-- Call sequence of the `one_complete_subscription` reference test, used as
concrete witness input. -/
def w1ops : List Op := [.setPrice 10, .advance 5, .topOff 1 100, .collect]

/-- Call sequence of the `overlapping_subscriptions` reference test: price 10,
account 1 tops off 100 at block 5, account 2 tops off 200 at block 10, one
collect at block 19. -/
def overlapOps : List Op :=
  [.setPrice 10, .advance 5, .topOff 1 100, .advance 10, .topOff 2 200,
   .advance 19, .collect]

/-- Purchase sequence whose third `top_off` uses a negative amount, driving
the account-1 ledger out of `start_block` order. -/
def negAmountOps : List Op :=
  [.setPrice 10, .advance 5, .topOff 1 10000, .topOff 1 (-50), .topOff 1 10]

/-- Two successive purchases by account 1 (blocks `[6, 16)` and `[21, 26)`),
used as concrete witness input for the ledger invariant. -/
def w8ops : List Op :=
  [.setPrice 10, .advance 5, .topOff 1 100, .advance 20, .topOff 1 50]

/-- Concrete manager state holding the single recorded interval `[6, 16)` for
account 1, at current block 7. -/
def w5s : SubscriptionManager :=
  { SubscriptionManager.new with
    subscriptions := fun x => if x = 1 then [⟨6, 16, 10⟩] else []
    current_block := 7 }

/-! ### Basic collector lemmas -/

lemma collect_one_last (c : Collector) (b : Int) :
    (c.collect_one b).last_collected_block = b := rfl

lemma collect_one_fee (c : Collector) (b : Int) :
    (c.collect_one b).current_fee = c.current_fee := rfl

/-- Settling to `a` and then to `b` is the same as settling to `b` directly:
the fee terms telescope in exact integer arithmetic. -/
lemma collect_one_collect_one (c : Collector) (a b : Int) :
    (c.collect_one a).collect_one b = c.collect_one b := by
  simp only [Collector.collect_one]
  ext <;> simp <;> ring

/-- Settling via `collect_one` moves funds between the two balances and never creates or
destroys them. -/
lemma collect_one_sum (c : Collector) (b : Int) :
    (c.collect_one b).balance + (c.collect_one b).service_balance =
      c.balance + c.service_balance := by
  simp only [Collector.collect_one]
  ring

/-- The sweep loop preserves `balance + service_balance`. -/
lemma sweep_sum (l : List (Int × Int)) :
    ∀ (c : Collector) (cur : Int),
      (sweep cur c l).1.balance + (sweep cur c l).1.service_balance =
        c.balance + c.service_balance := by
  induction l with
  | nil => intro c cur; rfl
  | cons hd tl ih =>
    intro c cur
    obtain ⟨b, d⟩ := hd
    simp only [sweep]
    split
    · rfl
    · rw [ih]
      simpa using collect_one_sum c b

/-- Operation `collect` preserves `pooled_balance + service_balance`. -/
lemma collect_sum (s : SubscriptionManager) : sumBal s.collect = sumBal s := by
  simp only [SubscriptionManager.collect, sumBal]
  rw [collect_one_sum]
  exact sweep_sum s.changes s.collector s.current_block

lemma collect_current_block (s : SubscriptionManager) :
    s.collect.current_block = s.current_block := rfl

/-- One successful API call changes `pooled_balance + service_balance` by
exactly the amount it accepts. -/
lemma step_sum (s : SubscriptionManager) (op : Op) (s' : SubscriptionManager)
    (h : step s op = some s') : sumBal s' = sumBal s + acceptedAmt s op := by
  cases op with
  | setPrice p =>
    simp only [step, SubscriptionManager.set_price_per_block, Option.some.injEq] at h
    subst h
    simp [sumBal, acceptedAmt]
  | advance b =>
    simp only [step, SubscriptionManager.set_current_block] at h
    split at h
    · cases h
      simp [sumBal, acceptedAmt]
    · cases h
  | topOff a amt =>
    simp only [step, SubscriptionManager.top_off] at h
    split at h
    · cases h
    · rename_i hp
      split at h
      · rename_i hz
        cases h
        simp [acceptedAmt, hp, hz]
      · rename_i hz
        cases h
        simp only [sumBal, acceptedAmt, if_neg hp, if_neg hz]
        ring
  | collect =>
    simp only [step, Option.some.injEq] at h
    subst h
    simpa [acceptedAmt] using collect_sum s

/-! ### Splitting a settlement sweep at an intermediate time -/

/-- Sweeping up to `t`, settling to `t`, and then collecting again at a later
time `T` gives the same collector and remaining changes as a single collect at
`T`: the loop's `break` at the first entry past the bound makes both sides
process the same entries in the same order, and the interleaved settlements
telescope. -/
lemma sweep_split (t T : Int) (h : t ≤ T) :
    ∀ (l : List (Int × Int)) (c : Collector),
      collectPair T ((sweep t c l).1.collect_one t) (sweep t c l).2 =
        collectPair T c l := by
  intro l
  induction l with
  | nil =>
    intro c
    simp [collectPair, sweep, collect_one_collect_one]
  | cons hd tl ih =>
    intro c
    obtain ⟨b, d⟩ := hd
    by_cases hbt : t < b
    · have hsw : sweep t c ((b, d) :: tl) = (c, (b, d) :: tl) := by
        simp [sweep, hbt]
      rw [hsw]
      by_cases hbT : T < b
      · have h1 : sweep T (c.collect_one t) ((b, d) :: tl) =
            (c.collect_one t, (b, d) :: tl) := by simp [sweep, hbT]
        have h2 : sweep T c ((b, d) :: tl) = (c, (b, d) :: tl) := by
          simp [sweep, hbT]
        simp [collectPair, h1, h2, collect_one_collect_one]
      · have h1 : sweep T (c.collect_one t) ((b, d) :: tl) =
            sweep T { (c.collect_one t).collect_one b with
              current_fee := ((c.collect_one t).collect_one b).current_fee + d } tl := by
          simp [sweep, hbT]
        have h2 : sweep T c ((b, d) :: tl) =
            sweep T { c.collect_one b with
              current_fee := (c.collect_one b).current_fee + d } tl := by
          simp [sweep, hbT]
        simp only [collectPair, h1, h2, collect_one_collect_one]
    · have hbt' : b ≤ t := le_of_not_lt hbt
      have hbT : ¬ T < b := not_lt.mpr (le_trans hbt' h)
      have h1 : sweep t c ((b, d) :: tl) =
          sweep t { c.collect_one b with
            current_fee := (c.collect_one b).current_fee + d } tl := by
        simp [sweep, hbt]
      have h2 : sweep T c ((b, d) :: tl) =
          sweep T { c.collect_one b with
            current_fee := (c.collect_one b).current_fee + d } tl := by
        simp [sweep, hbT]
      have h3 := ih { c.collect_one b with
        current_fee := (c.collect_one b).current_fee + d }
      simp only [collectPair] at h3 ⊢
      rw [h1, h2]
      exact h3

/-- Collecting at an intermediate time `t` and again at `T ≥ t` leaves the
manager in the same state as a single collect at `T`. -/
lemma collect_set_collect (s : SubscriptionManager) (t T : Int) (h : t ≤ T) :
    ({ (({ s with current_block := t } : SubscriptionManager).collect) with
        current_block := T } : SubscriptionManager).collect =
      ({ s with current_block := T } : SubscriptionManager).collect := by
  have hs := sweep_split t T h s.changes s.collector
  have h1 := congrArg Prod.fst hs
  have h2 := congrArg Prod.snd hs
  simp only [collectPair] at h1 h2
  simp only [SubscriptionManager.collect, SubscriptionManager.mk.injEq]
  exact ⟨h1, trivial, trivial, h2, trivial⟩

/-! ### Trace lemmas -/

lemma run_append (l1 l2 : List Op) :
    ∀ s : SubscriptionManager,
      run s (l1 ++ l2) =
        match run s l1 with
        | none => none
        | some s' => run s' l2 := by
  induction l1 with
  | nil => intro s; rfl
  | cons op rest ih =>
    intro s
    simp only [List.cons_append, run]
    cases step s op with
    | none => rfl
    | some s1 => exact ih s1

/-! ### C1: conservation of pooled plus service balance -/

/-- C1: along every panic-free trace of API calls, `pooled_balance +
service_balance` grows by exactly the total of the accepted `top_off` amounts
(`runAmt` records, per trace position, the amount iff that `top_off` computed
a non-zero number of blocks); every other call — in particular `collect` —
leaves the sum unchanged. -/
theorem balance_sum_conservation :
    (∀ (s : SubscriptionManager) (ops : List Op) (s' : SubscriptionManager) (t : Int),
      runAmt s ops = some (s', t) → sumBal s' = sumBal s + t) ∧
    (∀ s : SubscriptionManager, sumBal s.collect = sumBal s) := by
  constructor
  · intro s ops
    induction ops generalizing s with
    | nil =>
      intro s' t h
      simp only [runAmt, Option.some.injEq, Prod.mk.injEq] at h
      obtain ⟨h1, h2⟩ := h
      subst h1
      omega
    | cons op rest ih =>
      intro s' t h
      simp only [runAmt] at h
      cases hst : step s op with
      | none => rw [hst] at h; cases h
      | some s1 =>
        rw [hst] at h
        dsimp only at h
        cases hr : runAmt s1 rest with
        | none => rw [hr] at h; cases h
        | some p =>
          obtain ⟨s2, t1⟩ := p
          rw [hr] at h
          dsimp only at h
          simp only [Option.some.injEq, Prod.mk.injEq] at h
          obtain ⟨h1, h2⟩ := h
          have hsum := ih s1 s2 t1 hr
          have hstep := step_sum s op s1 hst
          rw [← h1, ← h2]
          omega
  · exact collect_sum

/-- Witness for C1 on the `one_complete_subscription` call sequence. -/
theorem balance_sum_conservation_witness :
    (runAmt SubscriptionManager.new w1ops).map
      (fun p => decide (sumBal p.1 = sumBal SubscriptionManager.new + p.2)) =
      some true := by
  obtain ⟨⟨s', t⟩, h⟩ : ∃ p, runAmt SubscriptionManager.new w1ops = some p := ⟨_, rfl⟩
  have hc := balance_sum_conservation.1 SubscriptionManager.new w1ops s' t h
  rw [h]
  simpa using hc

/-! ### C6: advance_time requires strictly increasing time -/

/-- C6: `set_current_block(new_time)` succeeds and sets `current_block` to
`new_time` exactly when `new_time > current_block`; otherwise the `assert!`
aborts the call (`none`) before any mutation, so the state is unchanged. -/
theorem set_current_block_spec (s : SubscriptionManager) (b : Int) :
    (s.current_block < b →
      s.set_current_block b = some { s with current_block := b }) ∧
    (b ≤ s.current_block → s.set_current_block b = none) := by
  refine ⟨fun h => ?_, fun h => ?_⟩
  · simp [SubscriptionManager.set_current_block, h]
  · simp [SubscriptionManager.set_current_block, not_lt.mpr h]

/-- Witness for C6 at the initial state. -/
theorem set_current_block_spec_witness :
    SubscriptionManager.new.set_current_block 5 =
        some { SubscriptionManager.new with current_block := 5 } ∧
      SubscriptionManager.new.set_current_block 0 = none :=
  ⟨(set_current_block_spec SubscriptionManager.new 5).1 (by decide),
   (set_current_block_spec SubscriptionManager.new 0).2 (by decide)⟩

/-! ### C7: zero-unit top_off is a silent no-op -/

/-- C7: whenever `top_off` computes `num_blocks = 0` (at a non-zero price, so
the division itself is defined), the call returns the state unchanged: no
balance increase, no ledger entry, no timeline change. -/
theorem top_off_zero_units_noop (s : SubscriptionManager) (a : Account)
    (amount : Int) (hp : s.price_per_block ≠ 0)
    (hz : Int.tdiv amount s.price_per_block = 0) :
    s.top_off a amount = some s := by
  simp [SubscriptionManager.top_off, hp, hz]

/-- Witness for C7: price 10, amount 7. -/
theorem top_off_zero_units_noop_witness :
    (SubscriptionManager.new.set_price_per_block 10).top_off 1 7 =
      some (SubscriptionManager.new.set_price_per_block 10) :=
  top_off_zero_units_noop _ 1 7 (by decide) (by decide)

/-! ### C10: top_off at price zero divides by zero -/

/-- C10: the constructor leaves `price_per_block = 0`, and in every state with
`price_per_block = 0` a `top_off` performs `amount / 0`, which panics
(modelled by `none`) for every account and amount instead of silently
rejecting; with any non-zero price `top_off` always returns normally. -/
theorem top_off_zero_price_panics :
    SubscriptionManager.new.price_per_block = 0 ∧
    (∀ (s : SubscriptionManager) (a : Account) (amount : Int),
      s.price_per_block = 0 → s.top_off a amount = none) ∧
    (∀ (s : SubscriptionManager) (a : Account) (amount : Int),
      s.price_per_block ≠ 0 → (s.top_off a amount).isSome = true) := by
  refine ⟨rfl, fun s a amount hp => ?_, fun s a amount hp => ?_⟩
  · simp [SubscriptionManager.top_off, hp]
  · simp only [SubscriptionManager.top_off, if_neg hp]
    split <;> simp

/-- Witness for C10: a fresh manager panics on `top_off`, one with price 10
does not. -/
theorem top_off_zero_price_panics_witness :
    SubscriptionManager.new.top_off 1 100 = none ∧
      ((SubscriptionManager.new.set_price_per_block 10).top_off 1 100).isSome =
        true :=
  ⟨top_off_zero_price_panics.2.1 SubscriptionManager.new 1 100 rfl,
   top_off_zero_price_panics.2.2 _ 1 100 (by decide)⟩

/-! ### C9: the fee arithmetic is not checked — it wraps -/

/-- C9 (refuting the claim of checked arithmetic): at the collector state
`{last_collected_block := 0, current_fee := 2^126, balance := 0,
service_balance := 0}`, settling to block `2` computes the fee
`2^126 * 2 = 2^127`, which overflows `i128`.  Under the release-build
semantics of the source's plain operators (`collect_one_wrap`) the fee wraps
to `-2^127` and the call proceeds, corrupting both balances to `-2^127`
(their sum is no longer conserved); nothing fails and nothing is rolled
back.  The exact-arithmetic value that checked arithmetic would need to
represent is `2^127`, which is outside `i128`. -/
theorem collect_one_overflow_wraps :
    Collector.collect_one_wrap
        { last_collected_block := 0, current_fee := 2 ^ 126, balance := 0,
          service_balance := 0 } 2 =
      { last_collected_block := 2, current_fee := 2 ^ 126,
        balance := -(2 ^ 127), service_balance := -(2 ^ 127) } ∧
    Collector.collect_one
        { last_collected_block := 0, current_fee := 2 ^ 126, balance := 0,
          service_balance := 0 } 2 =
      { last_collected_block := 2, current_fee := 2 ^ 126,
        balance := -(2 ^ 127), service_balance := 2 ^ 127 } := by
  constructor
  · simp only [Collector.collect_one_wrap, wrap128, Collector.mk.injEq]
    norm_num
  · simp only [Collector.collect_one, Collector.mk.injEq]
    norm_num

/-! ### C5: activity window of a single recorded interval -/

/-- C5: for an account whose ledger holds exactly one interval
`[start_block, end_block)`, `is_active` is false while `current_block <
start_block`, true throughout `[start_block, end_block)`, and false from
`end_block` on; for an account with no recorded intervals it is always
false. -/
theorem is_active_single_interval (s : SubscriptionManager) (a : Account)
    (e : Subscription) :
    (s.subscriptions a = [e] →
      ((s.current_block < e.start_block → s.is_active a = false) ∧
       (e.start_block ≤ s.current_block → s.current_block < e.end_block →
         s.is_active a = true) ∧
       (e.end_block ≤ s.current_block → s.is_active a = false))) ∧
    (s.subscriptions a = [] → s.is_active a = false) := by
  constructor
  · intro hsub
    simp only [SubscriptionManager.is_active, hsub, List.reverse_singleton,
      isActiveGo]
    refine ⟨fun h => ?_, fun h1 h2 => ?_, fun h => ?_⟩
    · rw [if_neg (not_le.mpr h)]
    · rw [if_pos h1]
      exact decide_eq_true h2
    · split
      · simp only [decide_eq_false_iff_not]
        omega
      · rfl
  · intro h
    simp [SubscriptionManager.is_active, h, isActiveGo]

/-- Witness for C5 on the interval `[6, 16)`: active at 7, inactive at 5 and
at 16, and account 2 (no purchases) inactive. -/
theorem is_active_single_interval_witness :
    w5s.is_active 1 = true ∧
      ({ w5s with current_block := 5 } : SubscriptionManager).is_active 1 = false ∧
      ({ w5s with current_block := 16 } : SubscriptionManager).is_active 1 = false ∧
      w5s.is_active 2 = false := by
  refine ⟨?_, ?_, ?_, ?_⟩
  · exact ((is_active_single_interval w5s 1 ⟨6, 16, 10⟩).1 rfl).2.1
      (by decide) (by decide)
  · exact ((is_active_single_interval _ 1 ⟨6, 16, 10⟩).1 rfl).1 (by decide)
  · exact ((is_active_single_interval _ 1 ⟨6, 16, 10⟩).1 rfl).2.2 (by decide)
  · exact (is_active_single_interval w5s 2 ⟨6, 16, 10⟩).2 rfl

/-! ### C3: overlapping subscriptions -/

/-- C3: in the reference scenario (price 10; account 1 tops off 100 at block
5 giving `[6, 16)`; account 2 tops off 200 at block 10 giving `[11, 31)`;
one collect at block 19) the resulting `service_balance` equals the sum over
the maximal constant-rate sub-intervals, with the code's half-open
semantics: `[6, 11)` at rate 10, `[11, 16)` at rate 20, `[16, 19)` at rate
10 — i.e. 180 (the assertion of the reference test; the inline comment's
hand computation of 190 contradicts the code). -/
theorem overlapping_subscriptions_service_balance :
    (run SubscriptionManager.new overlapOps).map
        (fun s => s.collector.service_balance) =
      some ((11 - 6) * 10 + (16 - 11) * (10 + 10) + (19 - 16) * 10) := by
  rfl

/-! ### C4: settlement is independent of collect granularity -/

/-- C4: from any state (in particular after any identical sequence of
purchases), advancing straight to `T = current_block + n + 1` and collecting
once produces the same final manager state — hence the same service balance
and collector state — as advancing one block at a time and collecting after
every single step. -/
theorem collect_granularity_independent (s : SubscriptionManager) (n : Nat) :
    run s [Op.advance (s.current_block + n + 1), Op.collect] =
      run s (stepOps s.current_block (n + 1)) := by
  induction n with
  | zero => rfl
  | succ n ih =>
    have hsplit : stepOps s.current_block (n + 1 + 1) =
        stepOps s.current_block (n + 1) ++
          [Op.advance (s.current_block + ((n : Int) + 1) + 1), Op.collect] := by
      simp only [stepOps, Nat.cast_add, Nat.cast_one]
    have hadv1 : step s (Op.advance (s.current_block + (n : Int) + 1)) =
        some { s with current_block := s.current_block + (n : Int) + 1 } := by
      have : s.current_block < s.current_block + (n : Int) + 1 := by omega
      simp [step, SubscriptionManager.set_current_block, this]
    have h1 : run s [Op.advance (s.current_block + (n : Int) + 1), Op.collect] =
        some (({ s with current_block := s.current_block + (n : Int) + 1 } :
          SubscriptionManager).collect) := by
      simp only [run, hadv1]
      rfl
    have hadv2 : step
        (({ s with current_block := s.current_block + (n : Int) + 1 } :
          SubscriptionManager).collect)
        (Op.advance (s.current_block + ((n : Int) + 1) + 1)) =
        some { (({ s with current_block := s.current_block + (n : Int) + 1 } :
            SubscriptionManager).collect) with
          current_block := s.current_block + ((n : Int) + 1) + 1 } := by
      simp only [step, SubscriptionManager.set_current_block,
        collect_current_block]
      rw [if_pos (by omega)]
    have hadv3 : step s (Op.advance (s.current_block + ((n : Int) + 1) + 1)) =
        some { s with current_block := s.current_block + ((n : Int) + 1) + 1 } := by
      have : s.current_block < s.current_block + ((n : Int) + 1) + 1 := by omega
      simp [step, SubscriptionManager.set_current_block, this]
    simp only [Nat.cast_add, Nat.cast_one]
    rw [hsplit, run_append, ← ih, h1]
    simp only [run, hadv2, hadv3]
    exact congrArg some (collect_set_collect s (s.current_block + (n : Int) + 1)
      (s.current_block + ((n : Int) + 1) + 1) (by omega)).symm

/-! ### C2: a single subscription fully collected pays units times price -/

/-- C2: a single accepted `top_off(a, amount)` made at price `p` and block
`t0 > 0` produces the interval `[t0 + 1, t0 + 1 + units)` with
`units = amount / p` (truncated division); advancing to any block `T` at or
past the interval end and collecting once leaves `service_balance = units * p`
exactly. -/
theorem single_subscription_full_collect (p t0 amount T : Int) (a : Account)
    (hp : p ≠ 0) (ht0 : 0 < t0) (hu : 0 < Int.tdiv amount p)
    (hT : t0 + 1 + Int.tdiv amount p ≤ T) :
    (run SubscriptionManager.new
        [Op.setPrice p, Op.advance t0, Op.topOff a amount, Op.advance T,
         Op.collect]).map (fun s => s.collector.service_balance) =
      some (Int.tdiv amount p * p) := by
  have hnum : ¬ Int.tdiv amount p = 0 := by omega
  have h2 : t0 < T := by omega
  have h3 : ¬ T < t0 + 1 := by omega
  have h4 : ¬ T < t0 + 1 + Int.tdiv amount p := by omega
  have h5 : ¬ (t0 + 1 + Int.tdiv amount p < t0 + 1) := by omega
  have h6 : ¬ (t0 + 1 + Int.tdiv amount p = t0 + 1) := by omega
  have hmax0 : max (0 : Int) (t0 + 1) = t0 + 1 := max_eq_right (by omega)
  have hchanges : accumulate (accumulate [] (t0 + 1) p)
      (t0 + 1 + Int.tdiv amount p) (-p) =
      [(t0 + 1, p), (t0 + 1 + Int.tdiv amount p, -p)] := by
    simp only [accumulate, if_neg h5, if_neg h6]
  have hsweep : sweep T
      { last_collected_block := 0
        current_fee := 0
        balance := amount
        service_balance := 0 }
      [(t0 + 1, p), (t0 + 1 + Int.tdiv amount p, -p)] =
      ({ last_collected_block := t0 + 1 + Int.tdiv amount p
         current_fee := 0
         balance := amount - Int.tdiv amount p * p
         service_balance := Int.tdiv amount p * p }, []) := by
    simp only [sweep, if_neg h3, if_neg h4, Collector.collect_one, Prod.mk.injEq,
      Collector.mk.injEq]
    norm_num
    ring
  have e2 : step
      { collector := Collector.new
        price_per_block := p
        current_block := 0
        changes := []
        subscriptions := fun _ => ([] : List Subscription) }
      (Op.advance t0) =
      some { collector := Collector.new
             price_per_block := p
             current_block := t0
             changes := []
             subscriptions := fun _ => ([] : List Subscription) } := by
    simp only [step, SubscriptionManager.set_current_block]
    rw [if_pos ht0]
  have e3 : step
      { collector := Collector.new
        price_per_block := p
        current_block := t0
        changes := []
        subscriptions := fun _ => ([] : List Subscription) }
      (Op.topOff a amount) =
      some { collector :=
               { last_collected_block := 0
                 current_fee := 0
                 balance := amount
                 service_balance := 0 }
             price_per_block := p
             current_block := t0
             changes := [(t0 + 1, p), (t0 + 1 + Int.tdiv amount p, -p)]
             subscriptions := fun x =>
               if x = a then
                 [{ start_block := t0 + 1
                    end_block := t0 + 1 + Int.tdiv amount p
                    price_per_block := p }]
               else [] } := by
    simp only [step, SubscriptionManager.top_off, Collector.new, if_neg hp,
      if_neg hnum, List.getLast?_nil, Option.map_none', Option.getD_none,
      hmax0, hchanges, List.nil_append, Option.some.injEq, zero_add]
  have e4 : step
      { collector :=
          { last_collected_block := 0
            current_fee := 0
            balance := amount
            service_balance := (0 : Int) }
        price_per_block := p
        current_block := t0
        changes := [(t0 + 1, p), (t0 + 1 + Int.tdiv amount p, -p)]
        subscriptions := fun x =>
          if x = a then
            [{ start_block := t0 + 1
               end_block := t0 + 1 + Int.tdiv amount p
               price_per_block := p }]
          else [] }
      (Op.advance T) =
      some { collector :=
               { last_collected_block := 0
                 current_fee := 0
                 balance := amount
                 service_balance := 0 }
             price_per_block := p
             current_block := T
             changes := [(t0 + 1, p), (t0 + 1 + Int.tdiv amount p, -p)]
             subscriptions := fun x =>
               if x = a then
                 [{ start_block := t0 + 1
                    end_block := t0 + 1 + Int.tdiv amount p
                    price_per_block := p }]
               else [] } := by
    simp only [step, SubscriptionManager.set_current_block]
    rw [if_pos h2]
  have e1 : step SubscriptionManager.new (Op.setPrice p) =
      some { collector := Collector.new
             price_per_block := p
             current_block := 0
             changes := []
             subscriptions := fun _ => ([] : List Subscription) } := rfl
  have e5 : ∀ s : SubscriptionManager, step s Op.collect = some s.collect :=
    fun _ => rfl
  simp only [run, e1]
  simp only [e2]
  simp only [e3]
  simp only [e4]
  simp only [e5]
  simp only [SubscriptionManager.collect, hsweep, Collector.collect_one,
    Option.map_some']
  norm_num

/-- Witness for C2, the reference scenario: price 10, top-off 100 at block 5
(interval `[6, 16)`), advance to 100, collect once: service balance 100. -/
theorem single_subscription_full_collect_witness :
    (run SubscriptionManager.new
        [Op.setPrice 10, Op.advance 5, Op.topOff 1 100, Op.advance 100,
         Op.collect]).map (fun s => s.collector.service_balance) =
      some 100 := by
  have h := single_subscription_full_collect 10 5 100 100 1 (by decide)
    (by decide) (by decide) (by decide)
  rw [h]
  decide

/-! ### C8: the per-account ledger invariant -/

/-- Invariant `stateOk` holds in the initial state. -/
lemma stateOk_new : stateOk SubscriptionManager.new := by
  refine ⟨le_refl 0, fun a => ⟨List.chain'_nil, ?_⟩⟩
  intro e he
  cases he

/-- One successful call with a non-negative price or amount preserves
`stateOk`. -/
lemma step_stateOk (s : SubscriptionManager) (op : Op) (s' : SubscriptionManager)
    (hok : opOk op = true) (hs : stateOk s) (h : step s op = some s') :
    stateOk s' := by
  cases op with
  | setPrice p =>
    simp only [step, SubscriptionManager.set_price_per_block,
      Option.some.injEq] at h
    subst h
    exact ⟨of_decide_eq_true hok, hs.2⟩
  | advance b =>
    simp only [step, SubscriptionManager.set_current_block] at h
    split at h
    · cases h
      exact ⟨hs.1, hs.2⟩
    · cases h
  | collect =>
    simp only [step, Option.some.injEq] at h
    subst h
    exact ⟨hs.1, hs.2⟩
  | topOff acct amt =>
    simp only [step, SubscriptionManager.top_off] at h
    split at h
    · cases h
    · rename_i hp0
      split at h
      · cases h
        exact hs
      · rename_i hnz
        have hamt : (0 : Int) ≤ amt := of_decide_eq_true hok
        have hnum : 0 < Int.tdiv amt s.price_per_block :=
          lt_of_le_of_ne (Int.tdiv_nonneg hamt hs.1) (Ne.symm hnz)
        cases h
        refine ⟨hs.1, fun b => ?_⟩
        dsimp only
        by_cases hb : b = acct
        · subst hb
          rw [if_pos rfl]
          constructor
          · rw [ledgerOk, List.chain'_append]
            refine ⟨(hs.2 b).1, List.chain'_singleton _, ?_⟩
            intro x hx y hy
            simp only [List.head?_cons, Option.mem_def, Option.some.injEq] at hy
            subst hy
            rw [Option.mem_def] at hx
            have hxmem : x ∈ s.subscriptions b := List.mem_of_mem_getLast? hx
            have hxse : x.start_block ≤ x.end_block := (hs.2 b).2 x hxmem
            have hlast : ((s.subscriptions b).getLast?.map
                Subscription.end_block).getD 0 = x.end_block := by
              rw [hx]
              rfl
            constructor
            · dsimp only
              rw [hlast]
              exact le_trans hxse (le_max_left _ _)
            · dsimp only
              rw [hlast]
              exact le_max_left _ _
          · intro e he
            rcases List.mem_append.mp he with h1 | h1
            · exact (hs.2 b).2 e h1
            · simp only [List.mem_singleton] at h1
              subst h1
              dsimp only
              omega
        · rw [if_neg hb]
          exact hs.2 b

/-- Invariant `stateOk` holds after any panic-free run of price- and
amount-non-negative calls. -/
lemma run_stateOk (ops : List Op) :
    ∀ (s s' : SubscriptionManager), (∀ op ∈ ops, opOk op = true) → stateOk s →
      run s ops = some s' → stateOk s' := by
  induction ops with
  | nil =>
    intro s s' _ hs h
    simp only [run, Option.some.injEq] at h
    subst h
    exact hs
  | cons op rest ih =>
    intro s s' hok hs h
    simp only [run] at h
    cases hst : step s op with
    | none => rw [hst] at h; cases h
    | some s1 =>
      rw [hst] at h
      exact ih s1 s' (fun o ho => hok o (List.mem_cons_of_mem _ ho))
        (step_stateOk s op s1 (hok op (List.mem_cons_self op rest)) hs hst) h

/-- C8 counterexample: the claim fails as stated.  With price 10 at block 5,
account 1 tops off 10000 (interval `[6, 1006)`), then -50 (units `-5`,
accepted, interval `[1006, 1001)`), then 10 (interval `[1001, 1002)`).  The
recorded `start_block`s are `[6, 1006, 1001]`, which is not ordered by
non-decreasing start. -/
theorem ledger_starts_not_monotone_cex :
    (run SubscriptionManager.new negAmountOps).map
        (fun s => (s.subscriptions 1).map Subscription.start_block) =
      some [6, 1006, 1001] ∧
    ¬ List.Chain' (· ≤ ·) [(6 : Int), 1006, 1001] := by
  constructor
  · rfl
  · intro hch
    rw [List.chain'_cons, List.chain'_cons] at hch
    exact absurd hch.2.1 (by decide)

/-- C8 (amended: restricted to non-negative prices and purchase amounts,
which the counterexample's negative amount violates): every reachable
account ledger is ordered by non-decreasing `start_block` with consecutive
entries non-overlapping (`start[i+1] ≥ end[i]`); and, with no restriction,
every entry appended by a `top_off` call has
`start_block ≥ current_block + 1` at its creation. -/
theorem ledger_invariant_nonneg :
    (∀ (ops : List Op) (s' : SubscriptionManager),
      (∀ op ∈ ops, opOk op = true) →
      run SubscriptionManager.new ops = some s' →
      ∀ a : Account, ledgerOk (s'.subscriptions a)) ∧
    (∀ (s : SubscriptionManager) (a : Account) (amount : Int)
      (s' : SubscriptionManager), s.top_off a amount = some s' →
      ∀ e ∈ s'.subscriptions a, e ∈ s.subscriptions a ∨
        s.current_block + 1 ≤ e.start_block) := by
  constructor
  · intro ops s' hok hrun a
    exact (((run_stateOk ops) SubscriptionManager.new s' hok stateOk_new
      hrun).2 a).1
  · intro s a amount s' h e he
    simp only [SubscriptionManager.top_off] at h
    split at h
    · cases h
    · split at h
      · cases h
        exact Or.inl he
      · cases h
        dsimp only at he
        rw [if_pos rfl] at he
        rcases List.mem_append.mp he with h1 | h1
        · exact Or.inl h1
        · simp only [List.mem_singleton] at h1
          subst h1
          exact Or.inr (le_max_right _ _)

/-- Witness for the amended C8 on two successive purchases by one account. -/
theorem ledger_invariant_nonneg_witness :
    (run SubscriptionManager.new w8ops).map
      (fun s => decide (ledgerOk (s.subscriptions 1))) = some true := by
  obtain ⟨s', h⟩ : ∃ s', run SubscriptionManager.new w8ops = some s' := ⟨_, rfl⟩
  have hled := ledger_invariant_nonneg.1 w8ops s' (by decide) h 1
  rw [h]
  simpa using hled
